import Mathlib

/-!
Verification of the spikeble host-side SPIKE hub client.

The development shallowly embeds the repository's core algorithms:

* the COBS-variant byte-stuffing framer (`_encode`, `cobs_pack`, `cobs_unpack`)
  from `src/tests/bt_spike_listen.py`;
* the notification deframer and message dispatcher
  (`MessageDispatcher.on_notify` / `_dispatch`) from `src/spike/hub/hub.py`;
* the chunked program-upload workflow (`ProgramManager.upload_program`)
  from `src/spike/hub/hub.py`;
* the streaming CRC-32 accumulator.  The module `lib/crc.py` is not part of
  the source tree, so `crc` is modelled from the specification text.

Bytes are modelled as `Nat` (Python `bytes` elements are `0 ≤ b < 256`; where a
result depends on that bound it appears as an explicit hypothesis).  Python
integers appearing with negative values (the decoder's `divmod`) are modelled
as `Int` with floor division `Int.fdiv` / `Int.fmod`, matching Python
semantics.  Fallible operations (Python exceptions) return `Option`.
-/

namespace Spikeble

/-! ## Framer constants (src/tests/bt_spike_listen.py, lines 20-24) -/

def DELIMITER : Nat := 0x02

def XOR : Nat := 0x03

def MAX_BLOCK : Nat := 84

def COBS_CODE_OFFSET : Nat := DELIMITER

def NO_DELIM : Nat := 0xFF

/-! ## Encoder (src/tests/bt_spike_listen.py, `_encode` lines 26-47,
`cobs_pack` lines 49-54)

The Python `_encode` mutates a growing `bytearray` `out`, a `code_index`
pointing at the pending code byte, and a `block` counter; `begin()` appends the
`NO_DELIM` placeholder.  We carry the three mutable variables in `EncState` and
replay the `for` loop as a left fold. -/

structure EncState where
  out : List Nat
  code_index : Nat
  block : Nat
deriving Repr, DecidableEq

/-- `begin()` of the source: remember the next position as the code index,
append the `NO_DELIM` placeholder there, reset the block counter to 1. -/
def beginBlock (s : EncState) : EncState :=
  { out := s.out ++ [NO_DELIM], code_index := s.out.length, block := 1 }

/-- One iteration of the `for b in payload` loop of `_encode`. -/
def encStep (s : EncState) (b : Nat) : EncState :=
  let s1 := if DELIMITER < b then { s with out := s.out ++ [b], block := s.block + 1 } else s
  if b ≤ DELIMITER ∨ MAX_BLOCK < s1.block then
    let s2 :=
      if b ≤ DELIMITER then
        { s1 with out := s1.out.set s1.code_index (b * MAX_BLOCK + (s1.block + COBS_CODE_OFFSET)) }
      else s1
    beginBlock s2
  else s1

/-- Closing write `out[code_index] = block + COBS_CODE_OFFSET` after the loop. -/
def encFinish (s : EncState) : List Nat :=
  s.out.set s.code_index (s.block + COBS_CODE_OFFSET)

def _encode (payload : List Nat) : List Nat :=
  encFinish (payload.foldl encStep (beginBlock { out := [], code_index := 0, block := 0 }))

/-- `cobs_pack`: XOR-mask every byte of the encoded body, append the
(unmasked) delimiter. -/
def cobs_pack (data : List Nat) : List Nat :=
  (_encode data).map (fun x => x ^^^ XOR) ++ [DELIMITER]

/-! ## Decoder (src/tests/bt_spike_listen.py, `cobs_unpack` lines 56-79) -/

/-- The inner `unesc` helper: split a code byte into the absorbed value (if
any) and the block length.  Python's `divmod` is floor division, hence
`Int.fdiv`/`Int.fmod`. -/
def unesc (code : Nat) : Option Int × Int :=
  if code = NO_DELIM then (none, (MAX_BLOCK : Int) + 1)
  else if Int.fmod ((code : Int) - COBS_CODE_OFFSET) MAX_BLOCK = 0 then
    (some (Int.fdiv ((code : Int) - COBS_CODE_OFFSET) MAX_BLOCK - 1), (MAX_BLOCK : Int))
  else
    (some (Int.fdiv ((code : Int) - COBS_CODE_OFFSET) MAX_BLOCK),
     Int.fmod ((code : Int) - COBS_CODE_OFFSET) MAX_BLOCK)

/-- The `for b in raw[1:]` loop of `cobs_unpack`, carrying the pending
`(v, blk)` pair and the accumulated output. -/
def decodeLoop : List Nat → Option Int → Int → List Int → List Int
  | [], _, _, out => out
  | b :: rest, v, blk, out =>
    if blk - 1 > 0 then
      decodeLoop rest v (blk - 1) (out ++ [(b : Int)])
    else
      let out1 := match v with
        | none => out
        | some w => out ++ [w]
      let p := unesc b
      decodeLoop rest p.1 p.2 out1

/-- `cobs_unpack`.  `none` models a raised exception: indexing `frame[0]` or
`raw[0]` out of range, or `bytes(out)` rejecting a value outside `0..255`. -/
def cobs_unpack (frame : List Nat) : Option (List Nat) :=
  match frame with
  | [] => none
  | f0 :: _ =>
    let start := if f0 = 0x01 then 1 else 0
    let raw := ((frame.drop start).dropLast).map (fun x => x ^^^ XOR)
    match raw with
    | [] => none
    | r0 :: rtail =>
      let p := unesc r0
      let out := decodeLoop rtail p.1 p.2 []
      if ∀ x ∈ out, 0 ≤ x ∧ x ≤ 255 then some (out.map Int.toNat) else none

/-! ## A recursive characterization of the encoder

`specEncode rest run` is the remainder of the encoded body produced from the
pending run `run` (the data bytes of the currently open block) followed by the
unprocessed payload `rest`.  `foldl_encStep_eq` proves it agrees with the
imperative `_encode`. -/

def specEncode : List Nat → List Nat → List Nat
  | [], run => (run.length + 1 + COBS_CODE_OFFSET) :: run
  | b :: rest, run =>
    if b ≤ DELIMITER then
      (b * MAX_BLOCK + (run.length + 1 + COBS_CODE_OFFSET)) :: (run ++ specEncode rest [])
    else if run.length = MAX_BLOCK - 1 then
      NO_DELIM :: ((run ++ [b]) ++ specEncode rest [])
    else
      specEncode rest (run ++ [b])

lemma set_append_cons (a : List Nat) (b : Nat) (c : List Nat) (x : Nat) :
    (a ++ b :: c).set a.length x = a ++ x :: c := by
  induction a with
  | nil => rfl
  | cons h t ih => simp [ih]

lemma foldl_encStep_eq (rest : List Nat) : ∀ done run : List Nat, run.length ≤ MAX_BLOCK - 1 →
    encFinish (rest.foldl encStep ⟨done ++ NO_DELIM :: run, done.length, run.length + 1⟩)
      = done ++ specEncode rest run := by
  induction rest with
  | nil =>
    intro done run _
    simp only [List.foldl_nil, encFinish, specEncode]
    exact set_append_cons ..
  | cons b rest ih =>
    intro done run hrun
    rw [List.foldl_cons]
    by_cases hb : b ≤ DELIMITER
    · have hstep : encStep ⟨done ++ NO_DELIM :: run, done.length, run.length + 1⟩ b
          = ⟨(done ++ (b * MAX_BLOCK + (run.length + 1 + COBS_CODE_OFFSET)) :: run)
              ++ NO_DELIM :: ([] : List Nat),
             (done ++ (b * MAX_BLOCK + (run.length + 1 + COBS_CODE_OFFSET)) :: run).length,
             ([] : List Nat).length + 1⟩ := by
        simp only [encStep, beginBlock, if_neg (by omega : ¬ DELIMITER < b), if_pos (Or.inl hb),
          if_pos hb]
        simp [set_append_cons]
      rw [hstep, ih _ ([] : List Nat) (by simp [MAX_BLOCK])]
      simp only [specEncode, if_pos hb]
      simp
    · by_cases hfull : run.length = MAX_BLOCK - 1
      · have hstep : encStep ⟨done ++ NO_DELIM :: run, done.length, run.length + 1⟩ b
            = ⟨(done ++ NO_DELIM :: (run ++ [b])) ++ NO_DELIM :: ([] : List Nat),
               (done ++ NO_DELIM :: (run ++ [b])).length, ([] : List Nat).length + 1⟩ := by
          simp only [encStep, beginBlock, if_pos (by omega : DELIMITER < b)]
          have hcond : b ≤ DELIMITER ∨ MAX_BLOCK < run.length + 1 + 1 := by
            right; simp only [MAX_BLOCK] at hfull ⊢; omega
          simp only [if_pos hcond, if_neg hb]
          simp
        rw [hstep, ih _ ([] : List Nat) (by simp [MAX_BLOCK])]
        simp only [specEncode, if_neg hb, if_pos hfull]
        simp
      · have hstep : encStep ⟨done ++ NO_DELIM :: run, done.length, run.length + 1⟩ b
            = ⟨done ++ NO_DELIM :: (run ++ [b]), done.length, (run ++ [b]).length + 1⟩ := by
          have hcond : ¬ (b ≤ DELIMITER ∨ MAX_BLOCK < run.length + 1 + 1) := by
            push_neg
            refine ⟨by omega, ?_⟩
            simp only [MAX_BLOCK] at hrun hfull ⊢; omega
          simp only [encStep, if_pos (by omega : DELIMITER < b), if_neg hcond]
          simp
        rw [hstep, ih _ (run ++ [b]) (by simp only [MAX_BLOCK] at hrun hfull ⊢; simp; omega)]
        simp only [specEncode, if_neg hb, if_neg hfull]

lemma encode_eq_spec (p : List Nat) : _encode p = specEncode p [] := by
  have h := foldl_encStep_eq p [] [] (by simp [MAX_BLOCK])
  simpa [_encode] using h

/-! ## Shape of the encoded body -/

/-- Every element of the encoded body is either the `NO_DELIM` sentinel or a
code/data byte that is at least 3 — so after XOR-masking with 3 no body byte
equals the delimiter. -/
lemma specEncode_mem : ∀ p run : List Nat, (∀ x ∈ run, DELIMITER < x) →
    ∀ x ∈ specEncode p run, x = NO_DELIM ∨ 3 ≤ x := by
  intro p
  induction p with
  | nil =>
    intro run hrun x hx
    simp only [specEncode] at hx
    rcases List.mem_cons.mp hx with h | h
    · right; subst h; simp only [COBS_CODE_OFFSET, DELIMITER]; omega
    · right; have := hrun x h; simp only [DELIMITER] at this; omega
  | cons b rest ih =>
    intro run hrun x hx
    by_cases hb : b ≤ DELIMITER
    · simp only [specEncode, if_pos hb] at hx
      rcases List.mem_cons.mp hx with h | h
      · right; subst h; simp only [COBS_CODE_OFFSET, DELIMITER]; omega
      · rcases List.mem_append.mp h with h2 | h2
        · right; have := hrun x h2; simp only [DELIMITER] at this; omega
        · exact ih [] (by simp) x h2
    · by_cases hfull : run.length = MAX_BLOCK - 1
      · simp only [specEncode, if_neg hb, if_pos hfull] at hx
        rcases List.mem_cons.mp hx with h | h
        · left; exact h
        · rcases List.mem_append.mp h with h2 | h2
          · rcases List.mem_append.mp h2 with h3 | h3
            · right; have := hrun x h3; simp only [DELIMITER] at this; omega
            · rcases List.mem_singleton.mp h3 with rfl
              right; simp only [DELIMITER] at hb; omega
          · exact ih [] (by simp) x h2
      · simp only [specEncode, if_neg hb, if_neg hfull] at hx
        refine ih (run ++ [b]) ?_ x hx
        intro y hy
        rcases List.mem_append.mp hy with h | h
        · exact hrun y h
        · rcases List.mem_singleton.mp h with rfl
          omega

/-- The encoded body is nonempty and starts with a code byte that is either
the sentinel or at least 3. -/
lemma specEncode_cons : ∀ p run : List Nat, ∃ c t,
    specEncode p run = c :: t ∧ (c = NO_DELIM ∨ 3 ≤ c) := by
  intro p
  induction p with
  | nil =>
    intro run
    exact ⟨run.length + 1 + COBS_CODE_OFFSET, run, rfl,
      Or.inr (by simp only [COBS_CODE_OFFSET, DELIMITER]; omega)⟩
  | cons b rest ih =>
    intro run
    by_cases hb : b ≤ DELIMITER
    · exact ⟨b * MAX_BLOCK + (run.length + 1 + COBS_CODE_OFFSET), run ++ specEncode rest [],
        by simp [specEncode, if_pos hb], Or.inr (by simp only [COBS_CODE_OFFSET, DELIMITER]; omega)⟩
    · by_cases hfull : run.length = MAX_BLOCK - 1
      · exact ⟨NO_DELIM, (run ++ [b]) ++ specEncode rest [],
          by simp [specEncode, if_neg hb, if_pos hfull], Or.inl rfl⟩
      · obtain ⟨c, t, h1, h2⟩ := ih (run ++ [b])
        exact ⟨c, t, by simp [specEncode, if_neg hb, if_neg hfull, h1], h2⟩

/-! ## Decoding the encoded body -/

lemma unesc_code (b r : Nat) (hb : b ≤ DELIMITER) (hr : r ≤ MAX_BLOCK - 1) :
    unesc (b * MAX_BLOCK + (r + 1 + COBS_CODE_OFFSET)) = (some (b : Int), (r : Int) + 1) := by
  simp only [DELIMITER, MAX_BLOCK, COBS_CODE_OFFSET] at hb hr ⊢
  have h255 : ¬ (b * 84 + (r + 1 + 2) = NO_DELIM) := by simp only [NO_DELIM]; omega
  have hsub : ((b * 84 + (r + 1 + 2) : Nat) : Int) - (2 : Nat) = ((b * 84 + (r + 1) : Nat) : Int) := by
    push_cast; ring
  simp only [unesc, DELIMITER, MAX_BLOCK, COBS_CODE_OFFSET, if_neg h255, hsub,
    ← Int.ofNat_fdiv, ← Int.ofNat_fmod]
  by_cases hcase : r = 83
  · subst hcase
    have hmod : (b * 84 + (83 + 1)) % 84 = 0 := by omega
    have hdiv : (b * 84 + (83 + 1)) / 84 = b + 1 := by omega
    rw [hmod, hdiv]
    simp
  · have hmod : (b * 84 + (r + 1)) % 84 = r + 1 := by omega
    have hdiv : (b * 84 + (r + 1)) / 84 = b := by omega
    rw [hmod, hdiv]
    rw [if_neg (by exact_mod_cast Nat.succ_ne_zero r)]
    simp

lemma unesc_sentinel : unesc NO_DELIM = (none, (MAX_BLOCK : Int) + 1) := rfl

/-- A block whose length exceeds the remaining bytes copies them verbatim. -/
lemma decodeLoop_run (d : List Nat) : ∀ (v : Option Int) (blk : Int) (out : List Int),
    (d.length : Int) < blk →
    decodeLoop d v blk out = out ++ d.map (fun b : Nat => (b : Int)) := by
  induction d with
  | nil => intro v blk out _; simp [decodeLoop]
  | cons b rest ih =>
    intro v blk out h
    simp only [List.length_cons] at h
    simp only [decodeLoop]
    rw [if_pos (by push_cast at h ⊢; omega)]
    rw [ih v (blk - 1) (out ++ [(b : Int)]) (by push_cast at h ⊢; omega)]
    simp

/-- Consuming exactly one block (with an absorbed value `w`) hands control to
the next code byte `c`. -/
lemma decodeLoop_block_some (d : List Nat) : ∀ (w : Int) (c : Nat) (tail : List Nat) (out : List Int),
    decodeLoop (d ++ c :: tail) (some w) ((d.length : Int) + 1) out
      = decodeLoop tail (unesc c).1 (unesc c).2 (out ++ d.map (fun b : Nat => (b : Int)) ++ [w]) := by
  induction d with
  | nil =>
    intro w c tail out
    simp only [List.nil_append, List.length_nil, Nat.cast_zero, zero_add, decodeLoop]
    rw [if_neg (by omega)]
    simp
  | cons b rest ih =>
    intro w c tail out
    simp only [List.cons_append, List.length_cons, decodeLoop]
    rw [if_pos (by push_cast; omega)]
    have harg : ((rest.length + 1 : Nat) : Int) + 1 - 1 = (rest.length : Int) + 1 := by
      push_cast; ring
    rw [harg]
    refine (ih w c tail (out ++ [(b : Int)])).trans ?_
    simp

/-- Consuming exactly one sentinel block (no absorbed value) hands control to
the next code byte `c`. -/
lemma decodeLoop_block_none (d : List Nat) : ∀ (c : Nat) (tail : List Nat) (out : List Int),
    decodeLoop (d ++ c :: tail) none ((d.length : Int) + 1) out
      = decodeLoop tail (unesc c).1 (unesc c).2 (out ++ d.map (fun b : Nat => (b : Int))) := by
  induction d with
  | nil =>
    intro c tail out
    simp only [List.nil_append, List.length_nil, Nat.cast_zero, zero_add, decodeLoop]
    rw [if_neg (by omega)]
    simp
  | cons b rest ih =>
    intro c tail out
    simp only [List.cons_append, List.length_cons, decodeLoop]
    rw [if_pos (by push_cast; omega)]
    have harg : ((rest.length + 1 : Nat) : Int) + 1 - 1 = (rest.length : Int) + 1 := by
      push_cast; ring
    rw [harg]
    refine (ih c tail (out ++ [(b : Int)])).trans ?_
    simp

/-- Decoding the encoded body recovers the pending run followed by the
remaining payload. -/
lemma decode_specEncode : ∀ (p run : List Nat) (out : List Int), run.length ≤ MAX_BLOCK - 1 →
    ∀ c t, specEncode p run = c :: t →
    decodeLoop t (unesc c).1 (unesc c).2 out
      = out ++ run.map (fun b : Nat => (b : Int)) ++ p.map (fun b : Nat => (b : Int)) := by
  intro p
  induction p with
  | nil =>
    intro run out hrun c t hct
    simp only [specEncode] at hct
    injection hct with h1 h2
    subst h1; subst h2
    have hz : run.length + 1 + COBS_CODE_OFFSET = 0 * MAX_BLOCK + (run.length + 1 + COBS_CODE_OFFSET) := by
      ring
    rw [hz, unesc_code 0 run.length (by simp [DELIMITER]) hrun]
    rw [decodeLoop_run run _ _ out (by push_cast; omega)]
    simp
  | cons b rest ih =>
    intro run out hrun c t hct
    by_cases hb : b ≤ DELIMITER
    · simp only [specEncode, if_pos hb] at hct
      injection hct with h1 h2
      subst h1; subst h2
      obtain ⟨c', t', hct', _⟩ := specEncode_cons rest []
      rw [hct', unesc_code b run.length hb hrun]
      simp only
      rw [decodeLoop_block_some]
      rw [ih [] (out ++ run.map (fun b : Nat => (b : Int)) ++ [(b : Int)]) (by simp) c' t' hct']
      simp
    · by_cases hfull : run.length = MAX_BLOCK - 1
      · simp only [specEncode, if_neg hb, if_pos hfull] at hct
        injection hct with h1 h2
        subst h1; subst h2
        obtain ⟨c', t', hct', _⟩ := specEncode_cons rest []
        rw [hct', unesc_sentinel]
        simp only
        have hlen : (MAX_BLOCK : Int) + 1 = (((run ++ [b]).length : Nat) : Int) + 1 := by
          simp [List.length_append, List.length_singleton, hfull, MAX_BLOCK]
        rw [hlen, decodeLoop_block_none]
        rw [ih [] (out ++ (run ++ [b]).map (fun b : Nat => (b : Int))) (by simp) c' t' hct']
        simp
      · simp only [specEncode, if_neg hb, if_neg hfull] at hct
        have hlen : (run ++ [b]).length ≤ MAX_BLOCK - 1 := by
          simp only [List.length_append, List.length_singleton, MAX_BLOCK] at hrun hfull ⊢
          omega
        rw [ih (run ++ [b]) out hlen c t hct]
        simp

/-! ## Framer round-trip -/

lemma xor_mask_invol (x : Nat) : (x ^^^ XOR) ^^^ XOR = x := by
  simp [Nat.xor_assoc]

/-- A masked leading code byte is never `0x01` (pre-mask code bytes are `3`
or larger, or the sentinel). -/
lemma code_xor_ne_one {c : Nat} (hc : c = NO_DELIM ∨ 3 ≤ c) : ¬ (c ^^^ XOR = 0x01) := by
  rcases hc with h255 | h3
  · subst h255; decide
  · intro h
    have h2 : c = 0x01 ^^^ XOR := by
      have h3 := congrArg (fun x => x ^^^ XOR) h
      simpa [xor_mask_invol] using h3
    have h4 : (0x01 ^^^ XOR) = 2 := by decide
    omega

lemma cobs_unpack_cons (f0 : Nat) (rest : List Nat) (h : ¬ f0 = 0x01) :
    cobs_unpack (f0 :: rest) =
      (match ((f0 :: rest).dropLast).map (fun x => x ^^^ XOR) with
       | [] => none
       | r0 :: rtail =>
         if ∀ x ∈ decodeLoop rtail (unesc r0).1 (unesc r0).2 [], 0 ≤ x ∧ x ≤ 255
         then some ((decodeLoop rtail (unesc r0).1 (unesc r0).2 []).map Int.toNat)
         else none) := by
  simp only [cobs_unpack, if_neg h, List.drop_zero]

/-- C1 core: a packed frame unpacks to the original payload. -/
lemma cobs_unpack_pack (p : List Nat) (hp : ∀ b ∈ p, b < 256) :
    cobs_unpack (cobs_pack p) = some p := by
  obtain ⟨c, t, hspec, hc⟩ := specEncode_cons p []
  have hbody : _encode p = c :: t := (encode_eq_spec p).trans hspec
  have hpack : cobs_pack p
      = (c ^^^ XOR) :: (t.map (fun x => x ^^^ XOR) ++ [DELIMITER]) := by
    simp [cobs_pack, hbody]
  have hne : ¬ (c ^^^ XOR = 0x01) := code_xor_ne_one hc
  rw [hpack, cobs_unpack_cons _ _ hne]
  have hscrut : (((c ^^^ XOR) :: (t.map (fun x => x ^^^ XOR) ++ [DELIMITER])).dropLast).map
      (fun x => x ^^^ XOR) = c :: t := by
    have hsh : (c ^^^ XOR) :: (t.map (fun x => x ^^^ XOR) ++ [DELIMITER])
        = ((c ^^^ XOR) :: t.map (fun x => x ^^^ XOR)) ++ [DELIMITER] := by simp
    rw [hsh, List.dropLast_concat]
    simp [List.map_map, Function.comp_def, xor_mask_invol]
  rw [hscrut]
  have hout : decodeLoop t (unesc c).1 (unesc c).2 [] = p.map (fun b : Nat => (b : Int)) :=
    (decode_specEncode p [] [] (by simp [MAX_BLOCK]) c t hspec).trans
      (by simp only [List.map_nil, List.nil_append])
  simp only [hout]
  rw [if_pos ?_]
  · have hmap : (p.map (fun b : Nat => (b : Int))).map Int.toNat = p := by
      rw [List.map_map]
      refine List.map_congr_left ?_ |>.trans (List.map_id p)
      intro b _
      simp
    rw [hmap]
  · intro x hx
    simp only [List.mem_map] at hx
    obtain ⟨b, hb, rfl⟩ := hx
    refine ⟨by exact_mod_cast Nat.zero_le b, ?_⟩
    have hb' := hp b hb
    exact_mod_cast (by omega : b ≤ 255)

/-- A full block (84 consecutive bytes above the delimiter) leaves the
sentinel `NO_DELIM` as its code byte. -/
lemma specEncode_full_head : ∀ p run : List Nat, (∀ x ∈ p, DELIMITER < x) →
    run.length ≤ MAX_BLOCK - 1 → MAX_BLOCK ≤ run.length + p.length →
    ∃ t, specEncode p run = NO_DELIM :: t := by
  intro p
  induction p with
  | nil =>
    intro run _ h1 h2
    exfalso
    simp only [List.length_nil, MAX_BLOCK] at h1 h2
    omega
  | cons b rest ih =>
    intro run hp h1 h2
    have hb : ¬ b ≤ DELIMITER := not_le.mpr (hp b (by simp))
    by_cases hfull : run.length = MAX_BLOCK - 1
    · exact ⟨(run ++ [b]) ++ specEncode rest [],
        by simp [specEncode, if_neg hb, if_pos hfull]⟩
    · obtain ⟨t, ht⟩ := ih (run ++ [b]) (fun x hx => hp x (List.mem_cons_of_mem _ hx))
        (by simp only [MAX_BLOCK, List.length_append, List.length_singleton] at h1 hfull ⊢; omega)
        (by simp only [MAX_BLOCK, List.length_append, List.length_singleton,
              List.length_cons] at h2 ⊢; omega)
      exact ⟨t, by simp [specEncode, if_neg hb, if_neg hfull, ht]⟩

/-! ## Claim theorems for the framer -/

/-- C1: for every byte sequence `p` (each element below 256), the framer
round-trips: `unpack (pack p) = p`.  This covers payloads containing `0x00`,
the delimiter `0x02` and the XOR mask `0x03`. -/
theorem unpack_pack_roundtrip (p : List Nat) (hp : ∀ b ∈ p, b < 256) :
    cobs_unpack (cobs_pack p) = some p :=
  cobs_unpack_pack p hp

theorem unpack_pack_roundtrip_witness :
    (∀ b ∈ ([0, 1, 2, 3, 84, 255] : List Nat), b < 256) ∧
    cobs_unpack (cobs_pack [0, 1, 2, 3, 84, 255]) = some [0, 1, 2, 3, 84, 255] :=
  ⟨by decide, unpack_pack_roundtrip [0, 1, 2, 3, 84, 255] (by decide)⟩

/-- C2: every packed frame ends with the delimiter `0x02`, and no earlier
byte of the frame equals `0x02`. -/
theorem pack_delimiter_only_final (p : List Nat) :
    (cobs_pack p).getLast? = some DELIMITER ∧ DELIMITER ∉ (cobs_pack p).dropLast := by
  constructor
  · simp [cobs_pack]
  · simp only [cobs_pack, List.dropLast_concat]
    intro hmem
    rw [List.mem_map] at hmem
    obtain ⟨y, hy, hxy⟩ := hmem
    have hspec := specEncode_mem p [] (by simp) y (by rwa [encode_eq_spec] at hy)
    have hyv : y = DELIMITER ^^^ XOR := by
      have h3 := congrArg (fun z => z ^^^ XOR) hxy
      simpa [xor_mask_invol] using h3
    have hD : (DELIMITER ^^^ XOR) = 1 := by decide
    have hN : NO_DELIM = 255 := rfl
    rcases hspec with h255 | h3' <;> omega

/-- C10: the first byte of a packed frame is never `0x01`: the pre-mask code
byte heading the body is the sentinel `0xFF` or at least 3, so the decoder's
branch that strips a leading `0x01` is unreachable on frames produced by
`cobs_pack`. -/
theorem pack_first_byte_ne_one (p : List Nat) :
    ∃ c t, _encode p = c :: t ∧ (c = NO_DELIM ∨ 3 ≤ c) ∧
      cobs_pack p = (c ^^^ XOR) :: (t.map (fun x => x ^^^ XOR) ++ [DELIMITER]) ∧
      (cobs_pack p).head? ≠ some 0x01 := by
  obtain ⟨c, t, hspec, hc⟩ := specEncode_cons p []
  have hbody : _encode p = c :: t := (encode_eq_spec p).trans hspec
  have hpack : cobs_pack p = (c ^^^ XOR) :: (t.map (fun x => x ^^^ XOR) ++ [DELIMITER]) := by
    simp [cobs_pack, hbody]
  refine ⟨c, t, hbody, hc, hpack, ?_⟩
  rw [hpack]
  simp only [List.head?_cons]
  intro h
  exact code_xor_ne_one hc (Option.some.inj h)

/-- C9 counterexample: `pack` applied to the single byte `0x00` yields the
three-byte frame `0x00 0x00 0x02`, not the claimed two-byte frame
`0x01 0x02`. -/
theorem pack_zero_counterexample :
    cobs_pack [0x00] = [0x00, 0x00, 0x02] ∧ cobs_pack [0x00] ≠ [0x01, 0x02] := by
  decide

/-- C9 amended: `pack (0x00)` is the frame `0x00 0x00 0x02` (absorbed-zero
block and empty trailing block, both with pre-mask code byte `0x03`, XOR-masked
to `0x00`), and `unpack` round-trips it to the original payload `0x00`. -/
theorem pack_zero_amended :
    cobs_pack [0x00] = [0x00, 0x00, 0x02] ∧ cobs_unpack [0x00, 0x00, 0x02] = some [0x00] := by
  decide

set_option maxRecDepth 40000 in
/-- C7 counterexample: on the payload of 85 copies of `0x03` the first block
fills up (84 data bytes) without absorbing a delimiter; the code byte finally
present at its code index is the sentinel `0xFF`, which differs from
`block_length + CODE_OFFSET` under either reading of the block length (84 or
85). -/
theorem full_block_counterexample :
    (_encode (List.replicate 85 0x03)).head? = some NO_DELIM ∧
    NO_DELIM ≠ 85 + COBS_CODE_OFFSET ∧ NO_DELIM ≠ 84 + COBS_CODE_OFFSET := by
  decide

/-- C7 amended: when a block ends because it filled up (its first
`MAX_BLOCK = 84` bytes all exceed the delimiter), the code byte finally
written at that block's code index is the sentinel `NO_DELIM = 0xFF` — the
placeholder is never overwritten — rather than `block_length + CODE_OFFSET`. -/
theorem full_block_code_amended (p : List Nat) (hlen : MAX_BLOCK ≤ p.length)
    (hgt : ∀ x ∈ p, DELIMITER < x) :
    (_encode p).head? = some NO_DELIM := by
  obtain ⟨t, ht⟩ := specEncode_full_head p [] hgt (by simp [MAX_BLOCK]) (by simpa using hlen)
  rw [encode_eq_spec, ht]
  rfl

set_option maxRecDepth 40000 in
theorem full_block_code_amended_witness :
    MAX_BLOCK ≤ (List.replicate 84 0x03).length ∧
    (∀ x ∈ List.replicate 84 0x03, DELIMITER < x) ∧
    (_encode (List.replicate 84 0x03)).head? = some NO_DELIM :=
  ⟨by decide, by decide, full_block_code_amended (List.replicate 84 0x03) (by decide) (by decide)⟩

/-! ## Message dispatcher (src/spike/hub/hub.py, `MessageDispatcher`) -/

/-- A decoded message, abstracted to the one attribute `_dispatch` consults:
`getattr(msg.__class__, "ID", -1)`.  A class without an `ID` attribute yields
`-1`, hence the `Int` type. -/
structure Msg where
  id : Int
deriving Repr, DecidableEq

/-- The pending request slot `(msg_id, future, response_type)` of the
dispatcher.  The `asyncio` future is modelled by its `done()` flag and the
result installed into it. -/
structure Pending where
  expId : Int
  futDone : Bool
  futResult : Option Msg
deriving Repr, DecidableEq

/-- Dispatcher state: the optional pending slot and the inbox queue. -/
structure DispState where
  pending : Option Pending
  queue : List Msg
deriving Repr, DecidableEq

/-- `MessageDispatcher._dispatch` (hub.py lines 188-202): if the slot is
occupied, the expected ID matches the message's class ID and the future is
not yet done, complete the future with the message and return; in every other
case fall through and enqueue the message. -/
def dispatch (st : DispState) (m : Msg) : DispState :=
  match st.pending with
  | some p =>
    if p.expId = m.id then
      if p.futDone then { st with queue := st.queue ++ [m] }
      else { st with pending := some { p with futDone := true, futResult := some m } }
    else { st with queue := st.queue ++ [m] }
  | none => { st with queue := st.queue ++ [m] }

/-- C4: `dispatch` completes the waiter with the message, leaving the queue
untouched, exactly when the slot is occupied with a matching expected ID and a
not-yet-done future; in every other case (slot empty, ID mismatch, or future
already done, as for a stale response after a timeout) the message is enqueued
and the slot is left unchanged. -/
theorem dispatch_routing (st : DispState) (m : Msg) :
    (∀ p, st.pending = some p → p.expId = m.id → p.futDone = false →
      dispatch st m = { st with pending := some { p with futDone := true, futResult := some m } }) ∧
    ((∀ p, st.pending = some p → p.expId ≠ m.id ∨ p.futDone = true) →
      dispatch st m = { st with queue := st.queue ++ [m] }) := by
  constructor
  · intro p hp hid hdone
    simp [dispatch, hp, hid, hdone]
  · intro h
    match hp : st.pending with
    | none => simp [dispatch, hp]
    | some p =>
      rcases h p hp with hid | hdone
      · simp [dispatch, hp, hid]
      · by_cases hid : p.expId = m.id
        · simp [dispatch, hp, hid, hdone]
        · simp [dispatch, hp, hid]

theorem dispatch_routing_witness :
    dispatch ⟨some ⟨5, false, none⟩, []⟩ ⟨5⟩ = ⟨some ⟨5, true, some ⟨5⟩⟩, []⟩ ∧
    dispatch ⟨some ⟨5, false, none⟩, []⟩ ⟨7⟩ = ⟨some ⟨5, false, none⟩, [⟨7⟩]⟩ :=
  ⟨(dispatch_routing ⟨some ⟨5, false, none⟩, []⟩ ⟨5⟩).1 ⟨5, false, none⟩ rfl rfl rfl,
   (dispatch_routing ⟨some ⟨5, false, none⟩, []⟩ ⟨7⟩).2
     (fun p hp => by cases Option.some.inj hp; left; decide)⟩

/-! ## Deframer (src/spike/hub/hub.py, `MessageDispatcher.on_notify`)

`on_notify` appends the notification bytes to `_inbuf`, then repeatedly
locates the first `DELIMITER`, slices the buffer up to and including it as one
frame, and runs `cobs_unpack`, `msg_deserialize` and `_dispatch` on the frame,
dropping the frame (and only the frame) on any exception.  `msg_deserialize`
lives in the absent module `lib/messages.py`, so the deframer is parametrised
over an arbitrary deserializer `deser` (exceptions modelled as `none`). -/

/-- `i = self._inbuf.index(DELIMITER); frame = bytes(self._inbuf[:i+1]);
del self._inbuf[:i+1]` — split the buffer at the first delimiter;
`none` when `index` raises `ValueError` (no delimiter present). -/
def breakFrame : List Nat → Option (List Nat × List Nat)
  | [] => none
  | b :: rest =>
    if b = DELIMITER then some ([b], rest)
    else
      match breakFrame rest with
      | none => none
      | some (f, r) => some (b :: f, r)

lemma breakFrame_eq_some : ∀ {buf f r : List Nat}, breakFrame buf = some (f, r) →
    buf = f ++ r ∧ f ≠ [] ∧ f.getLast? = some DELIMITER ∧ DELIMITER ∉ f.dropLast := by
  intro buf
  induction buf with
  | nil => intro f r h; simp [breakFrame] at h
  | cons b rest ih =>
    intro f r h
    simp only [breakFrame] at h
    by_cases hb : b = DELIMITER
    · rw [if_pos hb] at h
      obtain ⟨rfl, rfl⟩ := Prod.mk.injEq .. ▸ Option.some.inj h
      subst hb
      exact ⟨rfl, by simp, by simp, by simp⟩
    · rw [if_neg hb] at h
      match hbr : breakFrame rest with
      | none => rw [hbr] at h; exact absurd h (by simp)
      | some (f', r') =>
        rw [hbr] at h
        obtain ⟨rfl, rfl⟩ := Prod.mk.injEq .. ▸ Option.some.inj h
        obtain ⟨hbuf, hne, hlast, hint⟩ := ih hbr
        subst hbuf
        obtain ⟨c, t, rfl⟩ := List.exists_cons_of_ne_nil hne
        refine ⟨rfl, by simp, by simpa using hlast, ?_⟩
        rw [List.dropLast_cons_of_ne_nil (by simp)]
        intro hmem
        rcases List.mem_cons.mp hmem with h1 | h1
        · exact hb h1.symm
        · exact hint h1

lemma breakFrame_eq_none : ∀ {buf : List Nat}, breakFrame buf = none → DELIMITER ∉ buf := by
  intro buf
  induction buf with
  | nil => intro _ h; simp at h
  | cons b rest ih =>
    intro h hmem
    simp only [breakFrame] at h
    by_cases hb : b = DELIMITER
    · rw [if_pos hb] at h; exact absurd h (by simp)
    · rw [if_neg hb] at h
      match hbr : breakFrame rest with
      | some (f, r) => rw [hbr] at h; exact absurd h (by simp)
      | none =>
        rcases List.mem_cons.mp hmem with h1 | h1
        · exact hb h1.symm
        · exact ih hbr h1

lemma breakFrame_length {buf f r : List Nat} (h : breakFrame buf = some (f, r)) :
    r.length < buf.length := by
  obtain ⟨hbuf, hne, _, _⟩ := breakFrame_eq_some h
  subst hbuf
  have hpos : 0 < f.length := List.length_pos.mpr hne
  simp only [List.length_append]
  omega

/-- The `try: payload = cobs_unpack frame; msg = msg_deserialize payload;
self._dispatch msg; except Exception: continue` body of the loop: a frame that
fails to decode or deserialize leaves the state unchanged. -/
def handleFrame (deser : List Nat → Option Msg) (st : DispState) (f : List Nat) : DispState :=
  match cobs_unpack f with
  | none => st
  | some payload =>
    match deser payload with
    | none => st
    | some m => dispatch st m

/-- The `while True` loop of `on_notify`: pull delimiter-terminated frames off
the front of the buffer until none remains, handling each in order. -/
def processLoop (deser : List Nat → Option Msg) (buf : List Nat) (st : DispState) :
    List Nat × DispState :=
  match h : breakFrame buf with
  | none => (buf, st)
  | some (f, r) => processLoop deser r (handleFrame deser st f)
termination_by buf.length
decreasing_by exact breakFrame_length h

/-- `MessageDispatcher.on_notify` (hub.py lines 171-186): extend the buffer
with the notification bytes, then run the deframing loop.  Returns the new
buffer and dispatcher state. -/
def onNotify (deser : List Nat → Option Msg) (inbuf : List Nat) (st : DispState)
    (data : List Nat) : List Nat × DispState :=
  processLoop deser (inbuf ++ data) st

/-- Reference decomposition of a byte stream into its delimiter-terminated
frames and the trailing residue after the last delimiter. -/
def chopFrames (buf : List Nat) : List (List Nat) × List Nat :=
  match h : breakFrame buf with
  | none => ([], buf)
  | some (f, r) => (f :: (chopFrames r).1, (chopFrames r).2)
termination_by buf.length
decreasing_by exact breakFrame_length h

lemma processLoop_of_none {deser : List Nat → Option Msg} {buf : List Nat} {st : DispState}
    (h : breakFrame buf = none) : processLoop deser buf st = (buf, st) := by
  rw [processLoop]
  split
  · rfl
  · rename_i f r h2; rw [h] at h2; exact absurd h2 (by simp)

lemma processLoop_of_some {deser : List Nat → Option Msg} {buf f r : List Nat} {st : DispState}
    (h : breakFrame buf = some (f, r)) :
    processLoop deser buf st = processLoop deser r (handleFrame deser st f) := by
  rw [processLoop]
  split
  · rename_i h2; rw [h] at h2; exact absurd h2 (by simp)
  · rename_i f' r' h2
    rw [h] at h2
    obtain ⟨rfl, rfl⟩ := Prod.mk.injEq .. ▸ Option.some.inj h2
    rfl

lemma chopFrames_of_none {buf : List Nat} (h : breakFrame buf = none) :
    chopFrames buf = ([], buf) := by
  rw [chopFrames]
  split
  · rfl
  · rename_i f r h2; rw [h] at h2; exact absurd h2 (by simp)

lemma chopFrames_of_some {buf f r : List Nat} (h : breakFrame buf = some (f, r)) :
    chopFrames buf = (f :: (chopFrames r).1, (chopFrames r).2) := by
  rw [chopFrames]
  split
  · rename_i h2; rw [h] at h2; exact absurd h2 (by simp)
  · rename_i f' r' h2
    rw [h] at h2
    obtain ⟨rfl, rfl⟩ := Prod.mk.injEq .. ▸ Option.some.inj h2
    rfl

lemma chopFrames_spec : ∀ n (buf : List Nat), buf.length ≤ n →
    (chopFrames buf).1.flatten ++ (chopFrames buf).2 = buf ∧
    DELIMITER ∉ (chopFrames buf).2 ∧
    ∀ f ∈ (chopFrames buf).1,
      f ≠ [] ∧ f.getLast? = some DELIMITER ∧ DELIMITER ∉ f.dropLast := by
  intro n
  induction n with
  | zero =>
    intro buf hlen
    have hb : buf = [] := List.length_eq_zero.mp (Nat.le_zero.mp hlen)
    subst hb
    rw [chopFrames_of_none (show breakFrame [] = none from rfl)]
    exact ⟨rfl, by simp, by simp⟩
  | succ n ih =>
    intro buf hlen
    match hbr : breakFrame buf with
    | none =>
      rw [chopFrames_of_none hbr]
      exact ⟨rfl, breakFrame_eq_none hbr, by simp⟩
    | some (f, r) =>
      rw [chopFrames_of_some hbr]
      obtain ⟨hbuf, hne, hlast, hint⟩ := breakFrame_eq_some hbr
      have hlr : r.length ≤ n := by
        have := breakFrame_length hbr
        omega
      obtain ⟨ih1, ih2, ih3⟩ := ih r hlr
      refine ⟨?_, ih2, ?_⟩
      · simp only [List.flatten_cons, List.append_assoc, ih1]
        exact hbuf.symm
      · intro g hg
        rcases List.mem_cons.mp hg with h1 | h1
        · subst h1; exact ⟨hne, hlast, hint⟩
        · exact ih3 g h1

lemma processLoop_eq_chop (deser : List Nat → Option Msg) :
    ∀ n (buf : List Nat), buf.length ≤ n → ∀ st : DispState,
    processLoop deser buf st =
      ((chopFrames buf).2,
       ((chopFrames buf).1.filterMap (fun f => (cobs_unpack f).bind deser)).foldl dispatch st) := by
  intro n
  induction n with
  | zero =>
    intro buf hlen st
    have hb : buf = [] := List.length_eq_zero.mp (Nat.le_zero.mp hlen)
    subst hb
    rw [processLoop_of_none (show breakFrame [] = none from rfl),
      chopFrames_of_none (show breakFrame [] = none from rfl)]
    rfl
  | succ n ih =>
    intro buf hlen st
    match hbr : breakFrame buf with
    | none =>
      rw [processLoop_of_none hbr, chopFrames_of_none hbr]
      rfl
    | some (f, r) =>
      rw [processLoop_of_some hbr, chopFrames_of_some hbr]
      have hlr : r.length ≤ n := by
        have := breakFrame_length hbr
        omega
      rw [ih r hlr (handleFrame deser st f)]
      have hhandle : handleFrame deser st f =
          ((cobs_unpack f).bind deser).elim st (dispatch st) := by
        rw [handleFrame]
        match h1 : cobs_unpack f with
        | none => rfl
        | some payload =>
          match h2 : deser payload with
          | none => simp [Option.bind, h1, h2]
          | some m => simp [Option.bind, h1, h2]
      have hstep :
          List.foldl dispatch (handleFrame deser st f)
              (List.filterMap (fun g => (cobs_unpack g).bind deser) (chopFrames r).1)
            = List.foldl dispatch st
              (List.filterMap (fun g => (cobs_unpack g).bind deser) (f :: (chopFrames r).1)) := by
        rw [List.filterMap_cons, hhandle]
        match h3 : (cobs_unpack f).bind deser with
        | none => simp [h3, Option.elim]
        | some m => simp [h3, Option.elim]
      exact Prod.ext rfl hstep

/-- C5: `on_notify` appends the incoming bytes to the buffer, splits off every
delimiter-terminated frame in order, decodes and dispatches each frame that
survives `cobs_unpack` and deserialization (a failing frame is dropped and
only that frame), and retains exactly the residue after the last delimiter
(the partial frame) as the new buffer. -/
theorem on_notify_deframes (deser : List Nat → Option Msg) (inbuf data : List Nat)
    (st : DispState) :
    onNotify deser inbuf st data =
      ((chopFrames (inbuf ++ data)).2,
       (((chopFrames (inbuf ++ data)).1.filterMap
           (fun f => (cobs_unpack f).bind deser)).foldl dispatch st)) ∧
    (chopFrames (inbuf ++ data)).1.flatten ++ (chopFrames (inbuf ++ data)).2 = inbuf ++ data ∧
    DELIMITER ∉ (chopFrames (inbuf ++ data)).2 ∧
    ∀ f ∈ (chopFrames (inbuf ++ data)).1,
      f ≠ [] ∧ f.getLast? = some DELIMITER ∧ DELIMITER ∉ f.dropLast := by
  obtain ⟨h1, h2, h3⟩ := chopFrames_spec (inbuf ++ data).length (inbuf ++ data) le_rfl
  exact ⟨processLoop_eq_chop deser (inbuf ++ data).length (inbuf ++ data) le_rfl st, h1, h2, h3⟩

/-- C6 counterexample: on the frame `0x05 0x02` — whose decoded stream ends
mid-block — `cobs_unpack` does not signal an error; it returns the (truncated,
here empty) payload. -/
theorem malformed_frame_counterexample :
    cobs_unpack [0x05, 0x02] = some [] ∧ cobs_unpack [0x05, 0x02] ≠ none := by
  decide

/-- C6 amended: `cobs_unpack` on the frame `0x05 0x02` returns the truncated
(empty) payload instead of signalling malformed-frame; no message is
dispatched for that frame because deserializing the empty payload fails
(`deserialize` reads the first byte as the message ID), and the deframer state
is unchanged. -/
theorem malformed_frame_amended (deser : List Nat → Option Msg) (st : DispState)
    (hd : deser [] = none) :
    cobs_unpack [0x05, 0x02] = some [] ∧
    onNotify deser [] st [0x05, 0x02] = ([], st) := by
  refine ⟨by decide, ?_⟩
  have h1 : breakFrame [0x05, 0x02] = some ([0x05, 0x02], []) := by decide
  have h3 : handleFrame deser st [0x05, 0x02] = st := by
    rw [handleFrame]
    rw [show cobs_unpack [0x05, 0x02] = some [] from by decide]
    show (match deser [] with
      | none => st
      | some m => dispatch st m) = st
    rw [hd]
  show processLoop deser ([] ++ [0x05, 0x02]) st = ([], st)
  rw [List.nil_append, processLoop_of_some h1, h3,
    processLoop_of_none (show breakFrame [] = none from rfl)]

theorem malformed_frame_amended_witness :
    (fun _ : List Nat => (none : Option Msg)) [] = none ∧
    cobs_unpack [0x05, 0x02] = some [] ∧
    onNotify (fun _ => none) [] ⟨none, []⟩ [0x05, 0x02] = ([], ⟨none, []⟩) :=
  ⟨rfl, malformed_frame_amended (fun _ => none) ⟨none, []⟩ rfl⟩

/-! ## Streaming CRC-32

Modelled from the spec: the module `lib/crc.py` (imported by hub.py as
`from lib.crc import crc`) is absent from the source tree.  Spec §4.2
describes `crc(data, seed) → u32` as a standard reflected CRC-32 (tabled
constants of the usual variant, polynomial `0xEDB88320`), whose input is
internally zero-padded up to the next 4-byte multiple before being consumed,
the seed being the previous running value (0 for the first call). -/

def MASK32 : Nat := 0xFFFFFFFF

def CRC_POLY : Nat := 0xEDB88320

/-- Modelled from the spec: one bit step of the reflected CRC-32. -/
def crcRound (acc : Nat) : Nat :=
  if acc % 2 = 1 then (acc / 2) ^^^ CRC_POLY else acc / 2

/-- Modelled from the spec: absorb one byte (8 bit steps). -/
def crcByte (acc b : Nat) : Nat := crcRound^[8] (acc ^^^ b)

/-- Modelled from the spec: absorb a byte sequence into the running state. -/
def crcUpdate (data : List Nat) (acc : Nat) : Nat := data.foldl crcByte acc

/-- Modelled from the spec: zero-pad the input up to the next 4-byte
multiple. -/
def pad4 (data : List Nat) : List Nat :=
  data ++ List.replicate ((4 - data.length % 4) % 4) 0

/-- Modelled from the spec: `crc(data, seed)` — pad, run the byte updates
between the customary initial/final complement, threading the seed. -/
def crc (data : List Nat) (seed : Nat) : Nat :=
  crcUpdate (pad4 data) (seed ^^^ MASK32) ^^^ MASK32

lemma xor_mask32_invol (x : Nat) : (x ^^^ MASK32) ^^^ MASK32 = x := by
  simp [Nat.xor_assoc]

lemma pad4_eq_self {A : List Nat} (h : A.length % 4 = 0) : pad4 A = A := by
  simp [pad4, h]

lemma pad4_append {A B : List Nat} (h : A.length % 4 = 0) :
    pad4 (A ++ B) = A ++ pad4 B := by
  unfold pad4
  rw [List.length_append]
  have hmod : (A.length + B.length) % 4 = B.length % 4 := by omega
  rw [hmod, List.append_assoc]

lemma crcUpdate_append (A B : List Nat) (acc : Nat) :
    crcUpdate (A ++ B) acc = crcUpdate B (crcUpdate A acc) := by
  simp [crcUpdate, List.foldl_append]

/-- The streaming law behind the upload orchestrator: a 4-byte-aligned prefix
may be absorbed first and its running value used as the seed for the rest. -/
lemma crc_append_aux (A B : List Nat) (s : Nat) (h : A.length % 4 = 0) :
    crc (A ++ B) s = crc B (crc A s) := by
  unfold crc
  rw [pad4_append h, crcUpdate_append, xor_mask32_invol, pad4_eq_self h]

lemma crc_nil_zero : crc [] 0 = 0 := by decide

/-- C8: for every pair of byte sequences `(A, B)` with `|A|` a multiple of 4
and every seed `s`, `crc (A ++ B) s = crc B (crc A s)`; the seed-0 instance
is the special case `s = 0`. -/
theorem crc_append_split (A B : List Nat) (s : Nat) (h : A.length % 4 = 0) :
    crc (A ++ B) s = crc B (crc A s) :=
  crc_append_aux A B s h

theorem crc_append_split_witness :
    ([1, 2, 3, 4] : List Nat).length % 4 = 0 ∧
    crc ([1, 2, 3, 4] ++ [5, 6]) 7 = crc [5, 6] (crc [1, 2, 3, 4] 7) :=
  ⟨by decide, crc_append_split [1, 2, 3, 4] [5, 6] 7 (by decide)⟩

/-! ## Upload orchestrator (src/spike/hub/hub.py, `ProgramManager`) -/

/-- The outbound request messages `upload_program` can emit, abstracted to the
fields the workflow computes.  `ProgramFlowRequest(False, slot)` is what
`start_program` sends. -/
inductive OutMsg where
  | startFileUpload (name : String) (slot : Nat) (fileCrc : Nat)
  | transferChunk (running : Nat) (chunk : List Nat)
  | programFlow (stop : Bool) (slot : Nat)
deriving Repr, DecidableEq

/-- The `for off in range(0, len(data), max_chunk)` loop of `upload_program`:
slice the next chunk, advance the running CRC (`running = crc(chunk, running)`),
emit a `TransferChunkRequest(running, chunk)`.  The `maxChunk = 0` guard only
serves totality: the source never reaches it (Python's `range` raises
`ValueError` on a zero step). -/
def chunkLoop (maxChunk : Nat) (data : List Nat) (running : Nat) : List OutMsg :=
  match data with
  | [] => []
  | b :: rest =>
    if _h : maxChunk = 0 then []
    else
      OutMsg.transferChunk (crc ((b :: rest).take maxChunk) running) ((b :: rest).take maxChunk)
        :: chunkLoop maxChunk ((b :: rest).drop maxChunk)
            (crc ((b :: rest).take maxChunk) running)
termination_by data.length
decreasing_by simp [List.length_drop]; omega

/-- `ProgramManager.upload_program` (hub.py lines 395-421) as its ordered
outbound message trace: `StartFileUploadRequest(name, slot, crc(data, 0))`,
the transfer-chunk loop threading the running CRC from 0 with chunk size
`max_chunk = info.max_chunk_size`, then `start_program`'s
`ProgramFlowRequest(False, slot)`. -/
def upload_program (slot : Nat) (name : String) (data : List Nat) (maxChunk : Nat) :
    List OutMsg :=
  OutMsg.startFileUpload name slot (crc data 0)
    :: (chunkLoop maxChunk data 0 ++ [OutMsg.programFlow false slot])

lemma chunkLoop_nil (C r : Nat) : chunkLoop C [] r = [] := by
  rw [chunkLoop]

lemma chunkLoop_cons (C b : Nat) (rest : List Nat) (r : Nat) (h : ¬ C = 0) :
    chunkLoop C (b :: rest) r =
      OutMsg.transferChunk (crc ((b :: rest).take C) r) ((b :: rest).take C)
        :: chunkLoop C ((b :: rest).drop C) (crc ((b :: rest).take C) r) := by
  rw [chunkLoop]
  rw [dif_neg h]

lemma take_add_split : ∀ (l : List Nat) (m n : Nat),
    l.take (m + n) = l.take m ++ (l.drop m).take n := by
  intro l
  induction l with
  | nil => intro m n; simp
  | cons a t ih =>
    intro m n
    cases m with
    | zero => simp
    | succ m =>
      have hadd : m + 1 + n = (m + n) + 1 := by omega
      rw [hadd]
      simp only [List.take_succ_cons, List.drop_succ_cons]
      rw [ih, List.cons_append]

/-- The chunk loop seeded with the CRC of an aligned, already-sent prefix `A`
emits one `TransferChunk` per remaining chunk, in order, whose running values
are the CRCs of the prefixes of `A ++ data`. -/
lemma chunkLoop_spec (C : Nat) (hC : 0 < C) (hmod : C % 4 = 0) :
    ∀ n (data : List Nat), data.length ≤ n → ∀ A : List Nat, A.length % 4 = 0 →
    chunkLoop C data (crc A 0) =
      (List.range ((data.length + C - 1) / C)).map
        (fun i => OutMsg.transferChunk (crc (A ++ data.take ((i + 1) * C)) 0)
            ((data.drop (i * C)).take C)) := by
  intro n
  induction n with
  | zero =>
    intro data hlen A _
    have hd : data = [] := List.length_eq_zero.mp (Nat.le_zero.mp hlen)
    subst hd
    rw [chunkLoop_nil]
    have hk : ((List.length ([] : List Nat)) + C - 1) / C = 0 :=
      Nat.div_eq_of_lt (by simp; omega)
    rw [hk]
    simp
  | succ n ih =>
    intro data hlen A hA
    match data with
    | [] =>
      rw [chunkLoop_nil]
      have hk : ((List.length ([] : List Nat)) + C - 1) / C = 0 :=
        Nat.div_eq_of_lt (by simp; omega)
      rw [hk]
      simp
    | b :: rest =>
      rw [chunkLoop_cons C b rest _ (by omega)]
      have hcrc : crc ((b :: rest).take C) (crc A 0) = crc (A ++ (b :: rest).take C) 0 :=
        (crc_append_aux A ((b :: rest).take C) 0 hA).symm
      by_cases hle : rest.length + 1 ≤ C
      · have hdrop : (b :: rest).drop C = [] := by
          apply List.drop_eq_nil_of_le
          simp only [List.length_cons]
          omega
        rw [hdrop, chunkLoop_nil]
        have hk : ((b :: rest).length + C - 1) / C = 1 := by
          simp only [List.length_cons]
          exact Nat.div_eq_of_lt_le (by omega) (by omega)
        rw [hk]
        have hone : List.range 1 = [0] := rfl
        rw [hone, List.map_cons, List.map_nil, zero_add, one_mul, Nat.zero_mul,
          List.drop_zero, hcrc]
      · push_neg at hle
        have hchunkC : ((b :: rest).take C).length = C := by
          simp only [List.length_take, List.length_cons]
          omega
        have hA' : (A ++ (b :: rest).take C).length % 4 = 0 := by
          rw [List.length_append, hchunkC]
          omega
        have hlrec : ((b :: rest).drop C).length ≤ n := by
          simp only [List.length_drop, List.length_cons] at *
          omega
        have hrec := ih ((b :: rest).drop C) hlrec (A ++ (b :: rest).take C) hA'
        rw [hcrc, hrec]
        have hk : ((b :: rest).length + C - 1) / C
            = (((b :: rest).drop C).length + C - 1) / C + 1 := by
          simp only [List.length_cons, List.length_drop]
          have h1 : rest.length + 1 + C - 1 = (rest.length + 1 - C + C - 1) + C := by omega
          rw [h1, Nat.add_div_right _ hC]
        rw [hk, List.range_succ_eq_map, List.map_cons, List.map_map]
        congr 1
        · simp [hcrc]
        · apply List.map_congr_left
          intro i _
          simp only [Function.comp_apply, Nat.succ_eq_add_one]
          congr 1
          · congr 1
            rw [List.append_assoc]
            congr 1
            rw [show (i + 1 + 1) * C = C + (i + 1) * C from by ring, take_add_split]
          · rw [List.drop_drop]
            rw [show C + i * C = (i + 1) * C from by ring]

/-- C3: the outbound message trace of `upload_program` with data of length `L`
and chunk size `C = max_chunk_size` (a positive multiple of 4) is exactly: one
`StartFileUpload` carrying `crc(data, 0)`, then `⌈L/C⌉` `TransferChunk`
messages in order whose carried running CRCs are the threaded values
`running = crc(chunk, running)` — equal to the prefix CRCs of `data` — then
one `ProgramFlow` start message for the slot, and nothing else. -/
theorem upload_program_messages (slot : Nat) (name : String) (data : List Nat)
    (maxChunk : Nat) (hC : 0 < maxChunk) (hmod : maxChunk % 4 = 0) :
    upload_program slot name data maxChunk =
      OutMsg.startFileUpload name slot (crc data 0)
        :: ((List.range ((data.length + maxChunk - 1) / maxChunk)).map
              (fun i => OutMsg.transferChunk (crc (data.take ((i + 1) * maxChunk)) 0)
                  ((data.drop (i * maxChunk)).take maxChunk))
            ++ [OutMsg.programFlow false slot]) := by
  unfold upload_program
  have hmain := chunkLoop_spec maxChunk hC hmod data.length data le_rfl [] (by simp)
  rw [crc_nil_zero] at hmain
  simp only [List.nil_append] at hmain
  rw [hmain]

theorem upload_program_messages_witness :
    0 < 4 ∧ 4 % 4 = 0 ∧
    upload_program 2 "p" [9, 8, 7, 6, 5, 4] 4 =
      OutMsg.startFileUpload "p" 2 (crc [9, 8, 7, 6, 5, 4] 0)
        :: ((List.range (([9, 8, 7, 6, 5, 4].length + 4 - 1) / 4)).map
              (fun i => OutMsg.transferChunk (crc ([9, 8, 7, 6, 5, 4].take ((i + 1) * 4)) 0)
                  (([9, 8, 7, 6, 5, 4].drop (i * 4)).take 4))
            ++ [OutMsg.programFlow false 2]) :=
  ⟨by decide, by decide,
    upload_program_messages 2 "p" [9, 8, 7, 6, 5, 4] 4 (by decide) (by decide)⟩

end Spikeble
